import Mathlib

/-!
# EmulationStation: `SystemData.cpp`

A shallow embedding of `src/SystemData.cpp` (system registry, directory scan,
config loading, launch-command substitution) and the properties proved of it.

Strings (`std::string`) are lists of characters.  `std::string::npos` is `none`.
-/

namespace EmulationStation

/-- A `std::string`. -/
abbrev Str := List Char

/-! ## `std::string` primitives -/

/-- Scan of `find`: the first offset, counted from `i`, at which `needle` starts in the
remaining text. -/
def findFrom (needle : Str) : Str → Nat → Option Nat
  | [], i => if needle.isPrefixOf [] then some i else none
  | c :: cs, i => if needle.isPrefixOf (c :: cs) then some i else findFrom needle cs (i + 1)

/-- `s.find(needle, pos)`: the first position `>= pos` where `needle` occurs, or npos. -/
def find (s needle : Str) (pos : Nat) : Option Nat :=
  if pos ≤ s.length then findFrom needle (s.drop pos) pos else none

/-- `s.substr(pos, count)` for `pos <= s.length()` (the count is clipped to the end). -/
def substr (s : Str) (pos count : Nat) : Str :=
  (s.drop pos).take count

/-! ## Boost.Filesystem path decomposition -/

/-- `rfind` of one character: the position of its last occurrence. -/
def rfindChar (c : Char) : Str → Option Nat
  | [] => none
  | x :: xs =>
    match rfindChar c xs with
    | some i => some (i + 1)
    | none => if x = c then some 0 else none

/-- `path::filename()`: what follows the last `/`; a path ending in `/` has filename `.`. -/
def filename (p : Str) : Str :=
  match rfindChar '/' p with
  | none => p
  | some i => if i + 1 = p.length then ['.'] else p.drop (i + 1)

/-- `path::stem()`: the filename up to its last period; `.` and `..` are their own stem. -/
def stem (p : Str) : Str :=
  let name := filename p
  if name = ['.'] ∨ name = ['.', '.'] then name
  else
    match rfindChar '.' name with
    | none => name
    | some pos => name.take pos

/-- `path::extension()`: the filename from its last period on; empty when there is none,
and for `.` and `..`. -/
def extension (p : Str) : Str :=
  let name := filename p
  if name = ['.'] ∨ name = ['.', '.'] then []
  else
    match rfindChar '.' name with
    | none => []
    | some pos => name.drop pos

/-! ## The extension check of `populateFolder` (lines 131-152) -/

/-- Outcome of one pass through the body of the do-while loop. -/
inductive ExtStep
  | matched
  | stop
  | next (extPos : Nat)
  deriving DecidableEq, Repr

/-- One pass through the body of the do-while loop, with the loop condition: `matched` is
the `break`, `stop` a false loop condition, `next p` a true one with `extPos = p`. -/
def extensionStep (mSearchExtension ext : Str) (extPos : Nat) : ExtStep :=
  let cpos := extPos
  let extPos1 := find mSearchExtension [' '] extPos
  let chkExt := substr mSearchExtension cpos
    (match extPos1 with
     | none => mSearchExtension.length - cpos
     | some p => p - cpos)
  if chkExt = ext then ExtStep.matched
  else
    match extPos1 with
    | none => ExtStep.stop
    | some p =>
      if chkExt ≠ [] ∧ find chkExt ['.'] 0 ≠ none then ExtStep.next (p + 1) else ExtStep.stop

/-- The do-while loop, run for at most `fuel` passes from `extPos`.  The result is whether
a `GameData` was pushed, and how many times the body ran; `none` when the fuel ran out. -/
def extensionLoop (mSearchExtension ext : Str) : Nat → Nat → Option (Bool × Nat)
  | 0, _ => none
  | fuel + 1, extPos =>
    match extensionStep mSearchExtension ext extPos with
    | ExtStep.matched => some (true, 1)
    | ExtStep.stop => some (false, 1)
    | ExtStep.next p =>
      match extensionLoop mSearchExtension ext fuel p with
      | none => none
      | some r => some (r.1, r.2 + 1)

/-- The extension check as `populateFolder` runs it: from `extPos = 0`, with one pass per
character of the list and one more. -/
def extensionCheck (mSearchExtension ext : Str) : Option (Bool × Nat) :=
  extensionLoop mSearchExtension ext (mSearchExtension.length + 1) 0

/-- Whether the extension check pushes a `GameData` for a file of extension `ext`. -/
def extensionAccepted (mSearchExtension ext : Str) : Bool :=
  match extensionCheck mSearchExtension ext with
  | some r => r.1
  | none => false

/-! ## The directory scan -/

/-- What the scan sees at a path: a directory (with whether `is_symlink` holds of it, its
`canonical` path and the entries `directory_iterator` gives), or anything else. -/
inductive FsNode
  | file (path : Str)
  | dir (path : Str) (isSymlink : Bool) (canonical : Str) (entries : List FsNode)

/-- The path of a directory entry. -/
def FsNode.path : FsNode → Str
  | FsNode.file p => p
  | FsNode.dir p _ _ _ => p

/-- The catalog tree: `GameData` leaves and `FolderData` nodes with their file vector. -/
inductive FileData
  | game (path name : Str)
  | folder (path name : Str) (files : List FileData)

mutual
/-- Modelled from the spec: `FolderData::getFileCount` is not among the sources; the spec
gives a folder's file count as the recursive count of its FileNode descendants. -/
def FileData.fileCount : FileData → Nat
  | FileData.game _ _ => 1
  | FileData.folder _ _ files => fileCountList files
/-- Sum of the file counts of a file vector. -/
def fileCountList : List FileData → Nat
  | [] => 0
  | f :: fs => f.fileCount + fileCountList fs
end

/-- Modelled from the spec: `FolderData::getFileCount` is not among the sources; it is the
file count of the folder, the recursive count of its FileNode descendants. -/
def getFileCount (folder : FileData) : Nat := folder.fileCount

mutual
/-- `SystemData::populateFolder` on a freshly made folder whose path leads to `node`: the
file vector of the folder when it returns. -/
def populateFolder (mSearchExtension : Str) : FsNode → List FileData
  | FsNode.file _ => []
  | FsNode.dir folderPath isSymlink canonical entries =>
    if isSymlink = true ∧ find folderPath canonical 0 = some 0 then []
    else populateEntries mSearchExtension entries
/-- The `directory_iterator` loop of `populateFolder` (lines 111-154): what it pushes for
the entries, in their order. -/
def populateEntries (mSearchExtension : Str) : List FsNode → List FileData
  | [] => []
  | FsNode.file filePath :: rest =>
    if stem filePath = [] then populateEntries mSearchExtension rest
    else if extensionAccepted mSearchExtension (extension filePath) = true then
      FileData.game filePath (stem filePath) :: populateEntries mSearchExtension rest
    else populateEntries mSearchExtension rest
  | FsNode.dir filePath isSymlink canonical entries :: rest =>
    if stem filePath = [] then populateEntries mSearchExtension rest
    else
      let newFolder := FileData.folder filePath (stem filePath)
        (populateFolder mSearchExtension (FsNode.dir filePath isSymlink canonical entries))
      if getFileCount newFolder = 0 then populateEntries mSearchExtension rest
      else newFolder :: populateEntries mSearchExtension rest
end

/-! ## Launching a game -/

/-- `strreplace` (lines 57-65): the first occurrence of `replace` in `str` becomes `with`. -/
def strreplace (str replace withStr : Str) : Str :=
  match find str replace 0 with
  | some pos => str.take pos ++ withStr ++ str.drop (pos + replace.length)
  | none => str

/-- The token `%ROM%`. -/
def romToken : Str := ['%', 'R', 'O', 'M', '%']

/-- The token `%BASENAME%`. -/
def basenameToken : Str := ['%', 'B', 'A', 'S', 'E', 'N', 'A', 'M', 'E', '%']

/-- `SystemData::launchGame` (lines 73-76): the command handed to `system`, for a game
whose `getBashPath()` is `bashPath` and whose `getBaseName()` is `baseName`. -/
def launchGame (mLaunchCommand bashPath baseName : Str) : Str :=
  let command := mLaunchCommand
  let command := strreplace command romToken bashPath
  let command := strreplace command basenameToken baseName
  command

/-! ## Systems and the config file -/

/-- A `SystemData` object. -/
structure SystemData where
  mName : Str
  mDescName : Str
  mStartPath : Str
  mSearchExtension : Str
  mLaunchCommand : Str
  mRootFolder : FileData

/-- `SystemData::getStartPath`. -/
def SystemData.getStartPath (s : SystemData) : Str := s.mStartPath

/-- `SystemData::getDescName`. -/
def SystemData.getDescName (s : SystemData) : Str := s.mDescName

/-- `SystemData::getRootFolder`. -/
def SystemData.getRootFolder (s : SystemData) : FileData := s.mRootFolder

/-- What the code reads from outside itself: the environment variable `HOME`, the two
command-line flags, the file system (`readFile p` is the text of the file at `p` when it
can be opened, `lookup p` the node found at the path `p`, whose own path is `p`), and the
two routines of other files that the constructor calls on the root folder, `parseGamelist`
(XMLReader) and `FolderData::sort`. -/
structure Env where
  HOME : Str
  PARSEGAMELISTONLY : Bool
  IGNOREGAMELIST : Bool
  readFile : Str → Option Str
  lookup : Str → FsNode
  parseGamelist : SystemData → FileData
  sort : FileData → FileData

/-- The constructor `SystemData::SystemData` (lines 24-50). -/
def SystemData.new (env : Env) (name descName startPath extension command : Str) :
    SystemData :=
  let startPath :=
    if startPath.head? = some '~' then env.HOME ++ startPath.drop 1 else startPath
  let root := FileData.folder startPath "Search Root".toList
    (if env.PARSEGAMELISTONLY = true then [] else populateFolder extension (env.lookup startPath))
  let sys : SystemData :=
    { mName := name, mDescName := descName, mStartPath := startPath,
      mSearchExtension := extension, mLaunchCommand := command, mRootFolder := root }
  let sys := if env.IGNOREGAMELIST = true then sys
    else { sys with mRootFolder := env.parseGamelist sys }
  { sys with mRootFolder := env.sort sys.mRootFolder }

/-- `SystemData::getConfigPath` (lines 293-304); `none` is `exit(1)`. -/
def getConfigPath (env : Env) : Option Str :=
  if env.HOME = [] then none
  else some (env.HOME ++ "/.emulationstation/es_systems.cfg".toList)

/-- The five variables `loadConfig` fills from the lines of a record. -/
structure ConfigVars where
  sysName : Str
  sysDescName : Str
  sysPath : Str
  sysExtension : Str
  sysCommand : Str

/-- The variables as declared, and as reset after a system is created. -/
def ConfigVars.empty : ConfigVars :=
  { sysName := [], sysDescName := [], sysPath := [], sysExtension := [], sysCommand := [] }

/-- State of the read loop of `loadConfig`: the five variables and the registry. -/
structure LoadState where
  vars : ConfigVars
  sSystemVector : List SystemData

/-- The `for` loop of lines 192-201: the index of the first equals sign from index `i` on. -/
def scanEquals : Str → Nat → Option Nat
  | [], _ => none
  | c :: cs, i => if c = '=' then some i else scanEquals cs (i + 1)

/-- Lines 206-219: the value goes to the variable the name stands for.  A `PATH` value
loses its last character when that is a slash.  For an empty value the test of line 212
reads `varValue[-1]`; whichever way it goes, `sysPath` is then the empty string. -/
def assignVar (vars : ConfigVars) (varName varValue : Str) : ConfigVars :=
  if varName = "NAME".toList then { vars with sysName := varValue }
  else if varName = "DESCNAME".toList then { vars with sysDescName := varValue }
  else if varName = "PATH".toList then
    if varValue.getLast? = some '/' then
      { vars with sysPath := substr varValue 0 (varValue.length - 1) }
    else { vars with sysPath := varValue }
  else if varName = "EXTENSION".toList then { vars with sysExtension := varValue }
  else if varName = "COMMAND".toList then { vars with sysCommand := varValue }
  else vars

/-- Lines 221-238: once the four required variables are non-empty the system is created,
kept when its root folder has files, and the variables are reset. -/
def createSystem (env : Env) (st : LoadState) : LoadState :=
  let vars := st.vars
  if vars.sysName ≠ [] ∧ vars.sysPath ≠ [] ∧ vars.sysExtension ≠ [] ∧ vars.sysCommand ≠ [] then
    let sysDescName := if vars.sysDescName = [] then vars.sysName else vars.sysDescName
    let newSystem := SystemData.new env vars.sysName sysDescName vars.sysPath
      vars.sysExtension vars.sysCommand
    if getFileCount newSystem.getRootFolder = 0 then
      { vars := ConfigVars.empty, sSystemVector := st.sSystemVector }
    else
      { vars := ConfigVars.empty, sSystemVector := st.sSystemVector ++ [newSystem] }
  else st

/-- One pass through the body of the read loop (lines 183-242) on the line read.  The
flag is `false` when the pass ends in the `return` of line 241. -/
def loadConfigLine (env : Env) (st : LoadState) (line : Str) : LoadState × Bool :=
  if line = [] ∨ line.head? = some '#' then (st, true)
  else
    match scanEquals line 0 with
    | some i =>
      let varName := substr line 0 i
      let varValue := substr line (i + 1) (line.length - 1)
      (createSystem env { st with vars := assignVar st.vars varName varValue }, true)
    | none => (st, false)

/-- The read loop over the lines that `getline` yields in turn. -/
def loadConfigLoop (env : Env) : LoadState → List Str → LoadState
  | st, [] => st
  | st, line :: rest =>
    match loadConfigLine env st line with
    | (st1, true) => loadConfigLoop env st1 rest
    | (st1, false) => st1

/-- The lines `getline` yields while the stream is good: the text between newlines, with
the (maybe empty) text after the last one. -/
def fileLines (text : Str) : List Str := text.splitOn '\n'

/-- `SystemData::deleteSystems` (lines 284-291): every system is deleted and the registry
cleared. -/
def deleteSystems (_sSystemVector : List SystemData) : List SystemData := []

/-- `SystemData::loadConfig` (lines 168-251), from a registry `sSystemVector`: the registry
when it returns, or `none` when `getConfigPath` exits the process. -/
def loadConfig (env : Env) (sSystemVector : List SystemData) : Option (List SystemData) :=
  let sSystemVector := deleteSystems sSystemVector
  match getConfigPath env with
  | none => none
  | some path =>
    match env.readFile path with
    | some text =>
      some (loadConfigLoop env { vars := ConfigVars.empty, sSystemVector := sSystemVector }
        (fileLines text)).sSystemVector
    | none => some sSystemVector

/-! ## Notions the properties are stated with -/

/-- The loop as a walk over the tokens: the result and the number of tokens looked at. -/
def tokenLoop (ext : Str) : List Str → Bool × Nat
  | [] => (false, 0)
  | [t] => (decide (t = ext), 1)
  | t :: t1 :: ts =>
    if t = ext then (true, 1)
    else if t ≠ [] ∧ '.' ∈ t then
      ((tokenLoop ext (t1 :: ts)).1, (tokenLoop ext (t1 :: ts)).2 + 1)
    else (false, 1)

/-- The tokens the loop compares with the extension: those up to and including the first
token that is empty or has no period in it. -/
def reachedTokens : List Str → List Str
  | [] => []
  | t :: ts => if t ≠ [] ∧ '.' ∈ t then t :: reachedTokens ts else [t]

mutual
/-- Whether a node is a `GameData` or has one below it. -/
def FileData.hasGame : FileData → Bool
  | FileData.game _ _ => true
  | FileData.folder _ _ files => anyHasGame files
/-- Whether some node of a file vector is a `GameData` or has one below it. -/
def anyHasGame : List FileData → Bool
  | [] => false
  | f :: fs => f.hasGame || anyHasGame fs
end

mutual
/-- Whether every folder of the tree, the node itself included, has `getFileCount() >= 1`
and a `GameData` below it. -/
def FileData.foldersKept : FileData → Bool
  | FileData.game _ _ => true
  | FileData.folder path name files =>
    decide (1 ≤ getFileCount (FileData.folder path name files)) && anyHasGame files &&
      foldersKeptList files
/-- Whether `foldersKept` holds of every node of a file vector. -/
def foldersKeptList : List FileData → Bool
  | [] => true
  | f :: fs => f.foldersKept && foldersKeptList fs
end


mutual
/-- A node and every node below it. -/
def FileData.descendants : FileData → List FileData
  | FileData.game path name => [FileData.game path name]
  | FileData.folder path name files =>
    FileData.folder path name files :: descendantsList files
/-- The nodes of a file vector and every node below them. -/
def descendantsList : List FileData → List FileData
  | [] => []
  | f :: fs => f.descendants ++ descendantsList fs
end

/-- The directory `/r` with a file `a.nes`, a folder `d` holding `g.nes` two levels down, and
a folder `e` holding no game. -/
def sampleTree : FsNode :=
  FsNode.dir "/r".toList false "/r".toList
    [FsNode.file "/r/a.nes".toList,
     FsNode.dir "/r/d".toList false "/r/d".toList
       [FsNode.dir "/r/d/k".toList false "/r/d/k".toList [FsNode.file "/r/d/k/g.nes".toList],
        FsNode.file "/r/d/notes.txt".toList],
     FsNode.dir "/r/e".toList false "/r/e".toList [FsNode.file "/r/e/x.txt".toList]]

/-- The spec's `strip`: the trailing `/` of `v` is removed when `v` ends with `/`, and `v`
is left unchanged otherwise. -/
def stripTrailingSlash (v : Str) : Str :=
  if v.getLast? = some '/' then v.dropLast else v

/-- The spec's `expand`: a leading `~` is replaced by the home directory `h`, and a path
that does not begin with `~` is left unchanged. -/
def expandHome (h : Str) : Str → Str
  | '~' :: rest => h ++ rest
  | v => v

/-- A home directory `/home/u` whose config file is the sample of `writeExampleConfig`
(lines 262-266), with two ROMs and a text file in `~/ROMs/nes`. -/
def sampleEnv : Env :=
  { HOME := "/home/u".toList
    PARSEGAMELISTONLY := false
    IGNOREGAMELIST := false
    readFile := fun p =>
      if p = "/home/u/.emulationstation/es_systems.cfg".toList then
        some ("NAME=nes\nDESCNAME=Nintendo Entertainment System\nPATH=~/ROMs/nes/\n" ++
          "EXTENSION=.nes .NES\nCOMMAND=retroarch -L ~/cores/libretro-fceumm.so %ROM%\n").toList
      else none
    lookup := fun p =>
      if p = "/home/u/ROMs/nes".toList then
        FsNode.dir p false p
          [FsNode.file "/home/u/ROMs/nes/mario.nes".toList,
           FsNode.file "/home/u/ROMs/nes/readme.txt".toList,
           FsNode.file "/home/u/ROMs/nes/zelda.NES".toList]
      else FsNode.file p
    parseGamelist := fun s => s.mRootFolder
    sort := fun folder => folder }

/-- Whether the read loop skips a line: an empty line, or one that starts with `#`. -/
def isIgnoredLine (line : Str) : Bool :=
  decide (line = [] ∨ line.head? = some '#')

/-- The five names a line of a config record may have left of its equals sign. -/
inductive ConfigKey
  | NAME
  | DESCNAME
  | PATH
  | EXTENSION
  | COMMAND
  deriving DecidableEq, Repr

/-- The name as written in the file. -/
def ConfigKey.text : ConfigKey → Str
  | ConfigKey.NAME => "NAME".toList
  | ConfigKey.DESCNAME => "DESCNAME".toList
  | ConfigKey.PATH => "PATH".toList
  | ConfigKey.EXTENSION => "EXTENSION".toList
  | ConfigKey.COMMAND => "COMMAND".toList

/-- A record of the config file: the value of each name, and the names of its lines in
the order of the file, `last` being the name of its final line. -/
structure ConfigRecord where
  val : ConfigKey → Str
  init : List ConfigKey
  last : ConfigKey

/-- The lines of a record. -/
def ConfigRecord.lines (r : ConfigRecord) : List Str :=
  (r.init ++ [r.last]).map (fun k => k.text ++ '=' :: r.val k)

/-- A record whose final line is one of the four required ones, given once; the other
three required lines come before it, and the four required values (the `PATH` value once
its trailing slash is off) are non-empty. -/
def ConfigRecord.requiredLast (r : ConfigRecord) : Prop :=
  r.last ≠ ConfigKey.DESCNAME ∧ r.last ∉ r.init ∧
    (∀ k, k ≠ ConfigKey.DESCNAME → k ≠ r.last → k ∈ r.init) ∧
    r.val ConfigKey.NAME ≠ [] ∧ stripTrailingSlash (r.val ConfigKey.PATH) ≠ [] ∧
    r.val ConfigKey.EXTENSION ≠ [] ∧ r.val ConfigKey.COMMAND ≠ []

/-- The descriptive name the spec gives the system of a record: its `DESCNAME` value, or
its `NAME` value when the `DESCNAME` is empty or absent. -/
def ConfigRecord.descName (r : ConfigRecord) : Str :=
  if ConfigKey.DESCNAME ∈ r.init ++ [r.last] ∧ r.val ConfigKey.DESCNAME ≠ [] then
    r.val ConfigKey.DESCNAME
  else r.val ConfigKey.NAME

/-- The system made from the values of a record under descriptive name `descName`. -/
def ConfigRecord.system (env : Env) (r : ConfigRecord) (descName : Str) : SystemData :=
  SystemData.new env (r.val ConfigKey.NAME) descName
    (stripTrailingSlash (r.val ConfigKey.PATH)) (r.val ConfigKey.EXTENSION)
    (r.val ConfigKey.COMMAND)

/-- The variable a name stands for. -/
def ConfigVars.get (vars : ConfigVars) : ConfigKey → Str
  | ConfigKey.NAME => vars.sysName
  | ConfigKey.DESCNAME => vars.sysDescName
  | ConfigKey.PATH => vars.sysPath
  | ConfigKey.EXTENSION => vars.sysExtension
  | ConfigKey.COMMAND => vars.sysCommand

/-- The value a variable takes from the value written in the file. -/
def ConfigKey.stored (k : ConfigKey) (v : Str) : Str :=
  match k with
  | ConfigKey.PATH => stripTrailingSlash v
  | _ => v

/-- The variables after the lines `ks` of a record, none of which completes it. -/
def assignAll (val : ConfigKey → Str) (vars : ConfigVars) (ks : List ConfigKey) : ConfigVars :=
  ks.foldl (fun vs k => assignVar vs k.text (val k)) vars


/-- The positions at which `tok` occurs in a text, the first character of the text being
at position `i`. -/
def occurrences (tok : Str) : Str → Nat → List Nat
  | [], i => if tok.isPrefixOf [] then [i] else []
  | c :: cs, i =>
    if tok.isPrefixOf (c :: cs) then i :: occurrences tok cs (i + 1)
    else occurrences tok cs (i + 1)

/-- The state in which `loadConfig` enters the read loop: the variables as declared and
the registry just cleared. -/
def LoadState.start : LoadState :=
  { vars := ConfigVars.empty, sSystemVector := [] }

/-- The four required variables are empty, as they are when the read loop is entered and
after every creation of a system: no record is under way. -/
def ConfigVars.requiredEmpty (vars : ConfigVars) : Prop :=
  vars.sysName = [] ∧ vars.sysPath = [] ∧ vars.sysExtension = [] ∧ vars.sysCommand = []

/-- The descriptive name of the system `loadConfig` makes of a record that ends with a
required line, when `sysDescName` held `pending` as the record began: the record's own
`DESCNAME` value when it has such a line, `pending` otherwise, and the `NAME` value when
that is empty. -/
def ConfigRecord.descNameFrom (r : ConfigRecord) (pending : Str) : Str :=
  if (if ConfigKey.DESCNAME ∈ r.init then r.val ConfigKey.DESCNAME else pending) = [] then
    r.val ConfigKey.NAME
  else if ConfigKey.DESCNAME ∈ r.init then r.val ConfigKey.DESCNAME else pending

/-- A home directory `/home/u` whose config file holds a comment, the sample record of
`writeExampleConfig`, an empty line and the record `snesRecord`; each of the two ROM
directories holds one ROM. -/
def twoSystemsEnv : Env :=
  { HOME := "/home/u".toList
    PARSEGAMELISTONLY := false
    IGNOREGAMELIST := false
    readFile := fun p =>
      if p = "/home/u/.emulationstation/es_systems.cfg".toList then
        some ("# systems\nNAME=nes\nDESCNAME=Nintendo Entertainment System\n" ++
          "PATH=~/ROMs/nes/\nEXTENSION=.nes .NES\nCOMMAND=retroarch %ROM%\n\n" ++
          "COMMAND=snes9x %ROM%\nEXTENSION=.smc .sfc\nPATH=~/ROMs/snes/\n" ++
          "DESCNAME=Super Nintendo\nNAME=snes\n").toList
      else none
    lookup := fun p =>
      if p = "/home/u/ROMs/nes".toList then
        FsNode.dir p false p [FsNode.file "/home/u/ROMs/nes/mario.nes".toList]
      else if p = "/home/u/ROMs/snes".toList then
        FsNode.dir p false p [FsNode.file "/home/u/ROMs/snes/zelda.sfc".toList]
      else FsNode.file p
    parseGamelist := fun s => s.mRootFolder
    sort := fun folder => folder }

theorem findFrom_single_not_mem (c : Char) (s : Str) (i : Nat) (h : c ∉ s) :
    findFrom [c] s i = none := by
  induction s generalizing i with
  | nil => simp [findFrom]
  | cons x xs ih =>
    simp only [List.mem_cons, not_or] at h
    simp [findFrom, h.1, ih (i + 1) h.2]

theorem findFrom_single_first (c : Char) (tok rest : Str) (i : Nat) (h : c ∉ tok) :
    findFrom [c] (tok ++ c :: rest) i = some (i + tok.length) := by
  induction tok generalizing i with
  | nil => simp [findFrom]
  | cons x xs ih =>
    simp only [List.mem_cons, not_or] at h
    simp [findFrom, h.1, ih (i + 1) h.2]
    omega

theorem exists_first_split (c : Char) (s : Str) (h : c ∈ s) :
    ∃ tok rest, s = tok ++ c :: rest ∧ c ∉ tok := by
  induction s with
  | nil => simp at h
  | cons x xs ih =>
    by_cases hx : x = c
    · exact ⟨[], xs, by simp [hx], by simp⟩
    · have hc : c ∈ xs := by
        rcases List.mem_cons.mp h with h1 | h1
        · exact absurd h1.symm hx
        · exact h1
      obtain ⟨tok, rest, hs, hn⟩ := ih hc
      refine ⟨x :: tok, rest, by simp [hs], ?_⟩
      simp only [List.mem_cons, not_or]
      exact ⟨fun e => hx e.symm, hn⟩

theorem find_single_isSome (c : Char) (t : Str) : find t [c] 0 ≠ none ↔ c ∈ t := by
  constructor
  · intro h
    by_contra hc
    exact h (by simp [find, findFrom_single_not_mem c t 0 hc])
  · intro h
    obtain ⟨tok, rest, hs, hn⟩ := exists_first_split c t h
    simp [find, hs, findFrom_single_first c tok rest 0 hn]

/-- The body of the loop at the last token: no space from `pos` on. -/
theorem extensionStep_last (L ext : Str) (pos : Nat) (hpos : pos ≤ L.length)
    (h : ' ' ∉ L.drop pos) :
    extensionStep L ext pos = if L.drop pos = ext then ExtStep.matched else ExtStep.stop := by
  have hf : find L [' '] pos = none := by
    simp [find, hpos, findFrom_single_not_mem ' ' _ pos h]
  simp only [extensionStep, hf, substr]
  rw [List.take_of_length_le (by simp)]

/-- The body of the loop at a token that a space follows. -/
theorem extensionStep_token (L ext tok rest : Str) (pos : Nat) (hpos : pos ≤ L.length)
    (hs : L.drop pos = tok ++ ' ' :: rest) (h : ' ' ∉ tok) :
    extensionStep L ext pos =
      if tok = ext then ExtStep.matched
      else if tok ≠ [] ∧ '.' ∈ tok then ExtStep.next (pos + tok.length + 1)
      else ExtStep.stop := by
  have hf : find L [' '] pos = some (pos + tok.length) := by
    simp [find, hpos, hs, findFrom_single_first ' ' tok rest pos h]
  have hsub : substr L pos (pos + tok.length - pos) = tok := by
    simp [substr, hs]
  simp only [extensionStep, hf, hsub, find_single_isSome]

theorem drop_after_token (L tok rest : Str) (pos : Nat)
    (hs : L.drop pos = tok ++ ' ' :: rest) :
    L.drop (pos + tok.length + 1) = rest ∧ pos + tok.length + 1 ≤ L.length := by
  have hlen : (L.drop pos).length = tok.length + 1 + rest.length := by
    rw [hs]; simp; omega
  rw [List.length_drop] at hlen
  constructor
  · have : L.drop (pos + tok.length + 1) = (L.drop pos).drop (tok.length + 1) := by
      rw [List.drop_drop, Nat.add_assoc]
    rw [this, hs]
    simp
  · omega

theorem extensionLoop_eq_tokenLoop (L ext : Str) (fuel : Nat) :
    ∀ pos, pos ≤ L.length → L.length - pos < fuel →
      extensionLoop L ext fuel pos = some (tokenLoop ext ((L.drop pos).splitOn ' ')) := by
  induction fuel with
  | zero => intro pos _ h; omega
  | succ n ih =>
    intro pos hpos hfuel
    by_cases hsp : ' ' ∈ L.drop pos
    · obtain ⟨tok, rest, hs, hn⟩ := exists_first_split ' ' _ hsp
      obtain ⟨hdrop, hle⟩ := drop_after_token L tok rest pos hs
      have hsplit : (L.drop pos).splitOn ' ' = tok :: rest.splitOn ' ' := by
        rw [hs]
        exact List.splitOnP_first _ tok (by
          intro x hx hxe
          have : x = ' ' := by simpa using hxe
          exact hn (this ▸ hx)) ' ' (by simp) rest
      obtain ⟨t1, ts, hts⟩ : ∃ t1 ts, rest.splitOn ' ' = t1 :: ts := by
        cases hr : rest.splitOn ' ' with
        | nil => exact absurd hr (List.splitOnP_ne_nil _ _)
        | cons a b => exact ⟨a, b, rfl⟩
      rw [extensionLoop, extensionStep_token L ext tok rest pos hpos hs hn, hsplit, hts]
      by_cases h1 : tok = ext
      · simp [h1, tokenLoop]
      · by_cases h2 : tok ≠ [] ∧ '.' ∈ tok
        · have := ih (pos + tok.length + 1) hle (by omega)
          rw [hdrop, hts] at this
          simp [h1, h2, tokenLoop, this]
        · simp [h1, h2, tokenLoop]
    · have hsplit : (L.drop pos).splitOn ' ' = [L.drop pos] :=
        List.splitOnP_eq_single _ _ (by
          intro x hx hxe
          have : x = ' ' := by simpa using hxe
          exact hsp (this ▸ hx))
      rw [extensionLoop, extensionStep_last L ext pos hpos hsp, hsplit]
      by_cases h1 : L.drop pos = ext <;> simp [h1, tokenLoop]

theorem extensionCheck_eq (L ext : Str) :
    extensionCheck L ext = some (tokenLoop ext (L.splitOn ' ')) := by
  have := extensionLoop_eq_tokenLoop L ext (L.length + 1) 0 (Nat.zero_le _) (by omega)
  simpa [extensionCheck] using this

theorem mem_reachedTokens_cons (ext t : Str) (ts : List Str) :
    ext ∈ reachedTokens (t :: ts) ↔
      ext = t ∨ ((t ≠ [] ∧ '.' ∈ t) ∧ ext ∈ reachedTokens ts) := by
  rw [reachedTokens]
  by_cases h2 : t ≠ [] ∧ '.' ∈ t
  · rw [if_pos h2, List.mem_cons]
    simp [h2]
  · rw [if_neg h2, List.mem_singleton]
    simp [h2]

theorem tokenLoop_accepts (ext : Str) (toks : List Str) :
    (tokenLoop ext toks).1 = true ↔ ext ∈ reachedTokens toks := by
  induction toks with
  | nil => simp [tokenLoop, reachedTokens]
  | cons t ts ih =>
    rw [mem_reachedTokens_cons]
    cases ts with
    | nil => simp [tokenLoop, reachedTokens, eq_comm]
    | cons t1 ts =>
      by_cases h1 : t = ext
      · simp [tokenLoop, h1]
      · have h1' : ¬ ext = t := fun e => h1 e.symm
        by_cases h2 : t ≠ [] ∧ '.' ∈ t
        · rw [tokenLoop, if_neg h1, if_pos h2, ih]
          exact ⟨fun h => Or.inr ⟨h2, h⟩, fun h => h.elim (fun e => absurd e h1') (fun h => h.2)⟩
        · simp [tokenLoop, h1, h2, h1']

theorem extensionAccepted_iff (L ext : Str) :
    extensionAccepted L ext = true ↔ ext ∈ reachedTokens (L.splitOn ' ') := by
  simp only [extensionAccepted, extensionCheck_eq]
  exact tokenLoop_accepts ext _

theorem reachedTokens_of_periods (toks : List Str) (h : ∀ t ∈ toks, t.head? = some '.') :
    reachedTokens toks = toks := by
  induction toks with
  | nil => rfl
  | cons t ts ih =>
    have ht : t ≠ [] ∧ '.' ∈ t := by
      have := h t (List.mem_cons_self _ _)
      cases t with
      | nil => simp at this
      | cons c cs =>
        simp only [List.head?_cons, Option.some.injEq] at this
        simp [this]
    rw [reachedTokens, if_pos ht, ih (fun t' ht' => h t' (List.mem_cons_of_mem _ ht'))]

theorem populateEntries_file (L f : Str) (hstem : stem f ≠ []) :
    populateEntries L [FsNode.file f] =
      if extensionAccepted L (extension f) = true then [FileData.game f (stem f)] else [] := by
  simp [populateEntries, hstem]

/-- C1, as amended: for every extension list `L` and every file `f` that is not a
directory and has a non-empty stem, `populateFolder` attaches a `GameData` for `f` if and
only if the extension of `f` equals one of the tokens of `L` (split on single spaces) that
the loop reaches, namely the tokens up to and including the first one that is empty or has
no period; otherwise it attaches nothing for `f`. -/
theorem populateFolder_accepts_reached_token (L f : Str) (hstem : stem f ≠ []) :
    (populateEntries L [FsNode.file f] = [FileData.game f (stem f)] ↔
        extension f ∈ reachedTokens (L.splitOn ' ')) ∧
      (populateEntries L [FsNode.file f] = [] ↔
        extension f ∉ reachedTokens (L.splitOn ' ')) := by
  rw [populateEntries_file L f hstem, ← extensionAccepted_iff]
  by_cases h : extensionAccepted L (extension f) = true <;> simp [h]

/-- The three cases the spec lists: `game.nes` and `game.NES` are accepted by `.nes .NES`,
and `game.nes2` is rejected by `.nes`. -/
theorem populateFolder_accepts_reached_token_witness :
    stem "game.nes".toList ≠ [] ∧
      ((populateEntries ".nes .NES".toList [FsNode.file "game.nes".toList] =
          [FileData.game "game.nes".toList (stem "game.nes".toList)] ↔
        extension "game.nes".toList ∈ reachedTokens (".nes .NES".toList.splitOn ' ')) ∧
      (populateEntries ".nes .NES".toList [FsNode.file "game.nes".toList] = [] ↔
        extension "game.nes".toList ∉ reachedTokens (".nes .NES".toList.splitOn ' '))) ∧
      extension "game.nes".toList ∈ reachedTokens (".nes .NES".toList.splitOn ' ') ∧
      extension "game.NES".toList ∈ reachedTokens (".nes .NES".toList.splitOn ' ') ∧
      extension "game.nes2".toList ∉ reachedTokens (".nes".toList.splitOn ' ') :=
  ⟨by decide, populateFolder_accepts_reached_token _ _ (by decide), by decide, by decide,
    by decide⟩

/-- C1 fails as stated: `.nes` is a token of the list `nes .nes`, yet `game.nes` is not
accepted, because the loop stops at the first token, which has no period. -/
theorem populateFolder_skips_token_after_malformed :
    stem "game.nes".toList ≠ [] ∧
      extension "game.nes".toList ∈ "nes .nes".toList.splitOn ' ' ∧
      extensionAccepted "nes .nes".toList (extension "game.nes".toList) = false ∧
      populateEntries "nes .nes".toList [FsNode.file "game.nes".toList] = [] := by
  refine ⟨by decide, by decide, by decide, by rfl⟩

/-- C2: when every token of the extension list `L` (split on single spaces) begins with a
period, `populateFolder` attaches a `GameData` for a file `f` that is not a directory and
has a non-empty stem if and only if the extension of `f` is, character for character, one
of the tokens of `L`; otherwise it attaches nothing for `f`. -/
theorem populateFolder_matches_exact_token (L f : Str) (hstem : stem f ≠ [])
    (hL : ∀ t ∈ L.splitOn ' ', t.head? = some '.') :
    (populateEntries L [FsNode.file f] = [FileData.game f (stem f)] ↔
        extension f ∈ L.splitOn ' ') ∧
      (populateEntries L [FsNode.file f] = [] ↔ extension f ∉ L.splitOn ' ') := by
  have h := extensionAccepted_iff L (extension f)
  rw [reachedTokens_of_periods _ hL] at h
  rw [populateEntries_file L f hstem, ← h]
  by_cases ha : extensionAccepted L (extension f) = true <;> simp [ha]

/-- The list `.nes` does not include a file of extension `.NES`, the list `.nes2` does not
include one of extension `.nes`, and the list `.nes .NES` includes one of extension `.nes`. -/
theorem populateFolder_matches_exact_token_witness :
    (stem "game.NES".toList ≠ [] ∧ ∀ t ∈ ".nes".toList.splitOn ' ', t.head? = some '.') ∧
      ((populateEntries ".nes".toList [FsNode.file "game.NES".toList] =
          [FileData.game "game.NES".toList (stem "game.NES".toList)] ↔
        extension "game.NES".toList ∈ ".nes".toList.splitOn ' ') ∧
      (populateEntries ".nes".toList [FsNode.file "game.NES".toList] = [] ↔
        extension "game.NES".toList ∉ ".nes".toList.splitOn ' ')) ∧
      extension "game.NES".toList ∉ ".nes".toList.splitOn ' ' ∧
      extension "game.nes".toList ∉ ".nes2".toList.splitOn ' ' ∧
      extension "game.nes".toList ∈ ".nes .NES".toList.splitOn ' ' :=
  ⟨⟨by decide, by decide⟩,
    populateFolder_matches_exact_token _ _ (by decide) (by decide),
    by decide, by decide, by decide⟩

theorem extensionStep_increases (L ext : Str) (pos p : Nat)
    (h : extensionStep L ext pos = ExtStep.next p) : pos < p ∧ p ≤ L.length := by
  by_cases hpos : pos ≤ L.length
  · by_cases hsp : ' ' ∈ L.drop pos
    · obtain ⟨tok, rest, hs, hn⟩ := exists_first_split ' ' _ hsp
      obtain ⟨_, hle⟩ := drop_after_token L tok rest pos hs
      rw [extensionStep_token L ext tok rest pos hpos hs hn] at h
      split at h
      · cases h
      · split at h
        · injection h with h
          omega
        · cases h
    · rw [extensionStep_last L ext pos hpos hsp] at h
      split at h <;> cases h
  · have hf : find L [' '] pos = none := by simp [find, hpos]
    simp only [extensionStep, hf] at h
    split at h <;> cases h

theorem extensionLoop_count_le (L ext : Str) (fuel : Nat) :
    ∀ pos r, extensionLoop L ext fuel pos = some r → 1 ≤ r.2 ∧ r.2 ≤ fuel := by
  induction fuel with
  | zero => intro pos r h; simp [extensionLoop] at h
  | succ n ih =>
    intro pos r h
    rw [extensionLoop] at h
    split at h
    · cases h; simp
    · cases h; simp
    · split at h
      · cases h
      · rename_i r1 hr1
        cases h
        have := ih _ _ hr1
        simp only
        omega

/-- C5: for every extension list `L` and every extension, the do-while loop ends: from
`extPos = 0` it gives its result within `L.length + 1` passes (and gives the same with any
more fuel), every pass that continues moves `extPos` strictly forward and not past the end
of `L`, and when `L` has no space the body runs exactly once. -/
theorem extensionLoop_terminates (L ext : Str) :
    (∃ r, (∀ fuel, L.length + 1 ≤ fuel → extensionLoop L ext fuel 0 = some r) ∧
        extensionCheck L ext = some r ∧ 1 ≤ r.2 ∧ r.2 ≤ L.length + 1 ∧
        (' ' ∉ L → r.2 = 1)) ∧
      ∀ pos p, extensionStep L ext pos = ExtStep.next p → pos < p ∧ p ≤ L.length := by
  refine ⟨⟨tokenLoop ext (L.splitOn ' '), ?_, extensionCheck_eq L ext, ?_, ?_, ?_⟩,
    extensionStep_increases L ext⟩
  · intro fuel hfuel
    have := extensionLoop_eq_tokenLoop L ext fuel 0 (Nat.zero_le _) (by omega)
    simpa using this
  · exact (extensionLoop_count_le L ext _ 0 _ (extensionCheck_eq L ext)).1
  · exact (extensionLoop_count_le L ext _ 0 _ (extensionCheck_eq L ext)).2
  · intro hsp
    have hsplit : L.splitOn ' ' = [L] :=
      List.splitOnP_eq_single _ _ (by
        intro x hx hxe
        have : x = ' ' := by simpa using hxe
        exact hsp (this ▸ hx))
    rw [hsplit]
    rfl

/-- On the list `.nes .NES` the first pass moves `extPos` from 0 to 5, and the loop ends
after two passes; on the list `.nes` it ends after one. -/
theorem extensionLoop_terminates_witness :
    extensionStep ".nes .NES".toList ".zip".toList 0 = ExtStep.next 5 ∧
      (0 < 5 ∧ 5 ≤ ".nes .NES".toList.length) ∧
      extensionCheck ".nes .NES".toList ".zip".toList = some (false, 2) ∧
      extensionCheck ".nes".toList ".zip".toList = some (false, 1) :=
  ⟨by decide, (extensionLoop_terminates ".nes .NES".toList ".zip".toList).2 0 5 (by decide),
    by decide, by decide⟩

/-! ## The directory scan: pruning, the symlink guard, empty stems -/

theorem populateEntries_append (L : Str) (xs ys : List FsNode) :
    populateEntries L (xs ++ ys) = populateEntries L xs ++ populateEntries L ys := by
  induction xs with
  | nil => simp [populateEntries]
  | cons x xs ih =>
    cases x with
    | file p =>
      by_cases h1 : stem p = []
      · simp [populateEntries, h1, ih]
      · by_cases h2 : extensionAccepted L (extension p) = true
        · simp [populateEntries, h1, h2, ih]
        · simp [populateEntries, h1, h2, ih]
    | dir p sl c es =>
      by_cases h1 : stem p = []
      · simp [populateEntries, h1, ih]
      · by_cases h2 : getFileCount (FileData.folder p (stem p)
            (populateFolder L (FsNode.dir p sl c es))) = 0
        · simp [populateEntries, h1, h2, ih]
        · simp [populateEntries, h1, h2, ih]

theorem populateEntries_empty_stem (L : Str) (e : FsNode) (h : stem e.path = []) :
    populateEntries L [e] = [] := by
  cases e with
  | file p => simp [FsNode.path] at h; simp [populateEntries, h]
  | dir p sl c es => simp [FsNode.path] at h; simp [populateEntries, h]

theorem findFrom_ge (needle s : Str) (i j : Nat) (h : findFrom needle s i = some j) :
    i ≤ j := by
  induction s generalizing i with
  | nil =>
    simp only [findFrom] at h
    split at h
    · cases h; exact Nat.le_refl _
    · cases h
  | cons x xs ih =>
    simp only [findFrom] at h
    split at h
    · cases h; exact Nat.le_refl _
    · have := ih (i + 1) h
      omega

theorem find_zero_iff (s needle : Str) : find s needle 0 = some 0 ↔ needle <+: s := by
  simp only [find, Nat.zero_le, if_true, List.drop_zero]
  cases s with
  | nil => simp [findFrom, List.isPrefixOf_iff_prefix]
  | cons x xs =>
    simp only [findFrom]
    by_cases hp : needle.isPrefixOf (x :: xs) = true
    · simp [hp, List.isPrefixOf_iff_prefix.mp hp]
    · simp only [hp, if_false]
      constructor
      · intro h
        have := findFrom_ge _ _ _ _ h
        omega
      · intro h
        exact absurd (List.isPrefixOf_iff_prefix.mpr h) hp

mutual
theorem hasGame_of_fileCount (f : FileData) (h : 1 ≤ f.fileCount) : f.hasGame = true :=
  match f with
  | FileData.game _ _ => rfl
  | FileData.folder _ _ files => by
    rw [FileData.fileCount] at h
    rw [FileData.hasGame]
    exact anyHasGame_of_fileCount files h
theorem anyHasGame_of_fileCount (fs : List FileData) (h : 1 ≤ fileCountList fs) :
    anyHasGame fs = true :=
  match fs with
  | [] => by simp [fileCountList] at h
  | f :: fs => by
    rw [fileCountList] at h
    rw [anyHasGame, Bool.or_eq_true]
    by_cases hf : 1 ≤ f.fileCount
    · exact Or.inl (hasGame_of_fileCount f hf)
    · exact Or.inr (anyHasGame_of_fileCount fs (by omega))
end

mutual
theorem populateFolder_kept_aux (L : Str) (node : FsNode) :
    foldersKeptList (populateFolder L node) = true :=
  match node with
  | FsNode.file _ => by simp [populateFolder, foldersKeptList]
  | FsNode.dir p sl c es => by
    rw [populateFolder]
    split
    · simp [foldersKeptList]
    · exact populateEntries_kept_aux L es
theorem populateEntries_kept_aux (L : Str) (es : List FsNode) :
    foldersKeptList (populateEntries L es) = true :=
  match es with
  | [] => by simp [populateEntries, foldersKeptList]
  | FsNode.file p :: rest => by
    have ih := populateEntries_kept_aux L rest
    rw [populateEntries]
    split
    · exact ih
    · split
      · simp [foldersKeptList, FileData.foldersKept, ih]
      · exact ih
  | FsNode.dir p sl c es :: rest => by
    have ih := populateEntries_kept_aux L rest
    have ihd := populateFolder_kept_aux L (FsNode.dir p sl c es)
    rw [populateEntries]
    split
    · exact ih
    · simp only
      split
      · exact ih
      · rename_i hcount
        have hpos : 1 ≤ getFileCount (FileData.folder p (stem p)
            (populateFolder L (FsNode.dir p sl c es))) := by omega
        have hg := hasGame_of_fileCount _ hpos
        rw [FileData.hasGame] at hg
        simp [foldersKeptList, FileData.foldersKept, ih, ihd, hpos, hg]
end

mutual
theorem foldersKept_descendants (f : FileData) (h : f.foldersKept = true)
    (p n : Str) (fs : List FileData) (hm : FileData.folder p n fs ∈ f.descendants) :
    1 ≤ getFileCount (FileData.folder p n fs) ∧ anyHasGame fs = true :=
  match f with
  | FileData.game _ _ => by simp [FileData.descendants] at hm
  | FileData.folder p1 n1 fs1 => by
    rw [FileData.foldersKept] at h
    simp only [Bool.and_eq_true, decide_eq_true_eq] at h
    rw [FileData.descendants, List.mem_cons] at hm
    rcases hm with hm | hm
    · cases hm
      exact ⟨h.1.1, h.1.2⟩
    · exact foldersKeptList_descendants fs1 h.2 p n fs hm
theorem foldersKeptList_descendants (l : List FileData) (h : foldersKeptList l = true)
    (p n : Str) (fs : List FileData) (hm : FileData.folder p n fs ∈ descendantsList l) :
    1 ≤ getFileCount (FileData.folder p n fs) ∧ anyHasGame fs = true :=
  match l with
  | [] => by simp [descendantsList] at hm
  | f :: rest => by
    rw [foldersKeptList, Bool.and_eq_true] at h
    rw [descendantsList, List.mem_append] at hm
    rcases hm with hm | hm
    · exact foldersKept_descendants f h.1 p n fs hm
    · exact foldersKeptList_descendants rest h.2 p n fs hm
end

/-- C3: every folder that `populateFolder` has attached, at any depth below the folder it
populates, has `getFileCount() >= 1` and a `GameData` below it (a subdirectory whose
populated folder has file count 0 is not pushed). -/
theorem populateFolder_attached_folder_has_files (L : Str) (node : FsNode) (p n : Str)
    (fs : List FileData)
    (hm : FileData.folder p n fs ∈ descendantsList (populateFolder L node)) :
    1 ≤ getFileCount (FileData.folder p n fs) ∧ anyHasGame fs = true :=
  foldersKeptList_descendants _ (populateFolder_kept_aux L node) p n fs hm

theorem sampleTree_scan :
    populateFolder ".nes".toList sampleTree =
      [FileData.game "/r/a.nes".toList "a".toList,
       FileData.folder "/r/d".toList "d".toList
         [FileData.folder "/r/d/k".toList "k".toList
           [FileData.game "/r/d/k/g.nes".toList "g".toList]]] := by
  rfl

/-- In the scan of `sampleTree` the folder `/r/d/k` is attached two levels down, and the
folder `/r/e`, which holds no game, is not. -/
theorem populateFolder_attached_folder_has_files_witness :
    FileData.folder "/r/d/k".toList "k".toList
        [FileData.game "/r/d/k/g.nes".toList "g".toList] ∈
      descendantsList (populateFolder ".nes".toList sampleTree) ∧
    (1 ≤ getFileCount (FileData.folder "/r/d/k".toList "k".toList
        [FileData.game "/r/d/k/g.nes".toList "g".toList]) ∧
      anyHasGame [FileData.game "/r/d/k/g.nes".toList "g".toList] = true) :=
  have hm : FileData.folder "/r/d/k".toList "k".toList
        [FileData.game "/r/d/k/g.nes".toList "g".toList] ∈
      descendantsList (populateFolder ".nes".toList sampleTree) := by
    rw [sampleTree_scan]
    simp [descendantsList, FileData.descendants]
  ⟨hm, populateFolder_attached_folder_has_files _ _ _ _ _ hm⟩

/-- C4: for a directory that is a symbolic link and whose canonical path is a prefix of
its own path, `populateFolder` returns with no child added, whatever the directory holds,
and the directory is not attached where it is an entry; for a directory that is not a
symbolic link `populateFolder` scans the entries, whatever its canonical path. -/
theorem populateFolder_symlink_guard (L path canon : Str) (entries : List FsNode) :
    (canon <+: path →
        populateFolder L (FsNode.dir path true canon entries) = [] ∧
        ∀ pre post, populateEntries L (pre ++ FsNode.dir path true canon entries :: post) =
          populateEntries L pre ++ populateEntries L post) ∧
      populateFolder L (FsNode.dir path false canon entries) = populateEntries L entries := by
  constructor
  · intro hp
    have h0 : populateFolder L (FsNode.dir path true canon entries) = [] := by
      simp [populateFolder, (find_zero_iff path canon).mpr hp]
    refine ⟨h0, fun pre post => ?_⟩
    have h1 : populateEntries L [FsNode.dir path true canon entries] = [] := by
      by_cases hs : stem path = []
      · simp [populateEntries, hs]
      · simp [populateEntries, hs, h0, getFileCount, FileData.fileCount, fileCountList]
    have := populateEntries_append L pre (FsNode.dir path true canon entries :: post)
    rw [this, show FsNode.dir path true canon entries :: post =
      [FsNode.dir path true canon entries] ++ post from rfl, populateEntries_append, h1]
    simp
  · simp [populateFolder]

/-- The link `/r/loop` to `/r` is skipped with the ROM it shows; the same directory, when
it is no link, is scanned. -/
theorem populateFolder_symlink_guard_witness :
    "/r".toList <+: "/r/loop".toList ∧
      populateFolder ".nes".toList (FsNode.dir "/r/loop".toList true "/r".toList
        [FsNode.file "/r/loop/a.nes".toList]) = [] ∧
      populateFolder ".nes".toList (FsNode.dir "/r/loop".toList false "/r".toList
        [FsNode.file "/r/loop/a.nes".toList]) =
        [FileData.game "/r/loop/a.nes".toList "a".toList] :=
  ⟨by decide,
    ((populateFolder_symlink_guard ".nes".toList "/r/loop".toList "/r".toList
      [FsNode.file "/r/loop/a.nes".toList]).1 (by decide)).1,
    (populateFolder_symlink_guard ".nes".toList "/r/loop".toList "/r".toList
      [FsNode.file "/r/loop/a.nes".toList]).2⟩

/-- C6: for an entry whose name has an empty stem, file or directory, `populateFolder`
attaches nothing, whatever the extension list: the scan of the entries is the scan of the
entries without it. -/
theorem populateFolder_skips_empty_stem (L : Str) (e : FsNode) (h : stem e.path = [])
    (pre post : List FsNode) :
    populateEntries L (pre ++ e :: post) = populateEntries L pre ++ populateEntries L post := by
  rw [populateEntries_append, show e :: post = [e] ++ post from rfl, populateEntries_append,
    populateEntries_empty_stem L e h]
  simp

/-- The file `/r/.nes` has an empty stem and the extension `.nes`, a token of the list
`.nes`; nothing is attached for it. -/
theorem populateFolder_skips_empty_stem_witness :
    (stem (FsNode.file "/r/.nes".toList).path = [] ∧
      extension "/r/.nes".toList ∈ ".nes".toList.splitOn ' ') ∧
    populateEntries ".nes".toList
        ([FsNode.file "/r/a.nes".toList] ++ FsNode.file "/r/.nes".toList ::
          [FsNode.file "/r/b.nes".toList]) =
      populateEntries ".nes".toList [FsNode.file "/r/a.nes".toList] ++
        populateEntries ".nes".toList [FsNode.file "/r/b.nes".toList] :=
  ⟨⟨by decide, by decide⟩, populateFolder_skips_empty_stem _ _ (by decide) _ _⟩

/-! ## The config file -/

theorem scanEquals_first (k v : Str) (i : Nat) (h : '=' ∉ k) :
    scanEquals (k ++ '=' :: v) i = some (i + k.length) := by
  induction k generalizing i with
  | nil => simp [scanEquals]
  | cons x xs ih =>
    simp only [List.mem_cons, not_or] at h
    have hx : ¬ x = '=' := fun e => h.1 e.symm
    simp [scanEquals, hx, ih (i + 1) h.2]
    omega

theorem scanEquals_some (s : Str) (i j : Nat) (h : scanEquals s i = some j) :
    ∃ k v, s = k ++ '=' :: v ∧ '=' ∉ k ∧ j = i + k.length := by
  induction s generalizing i with
  | nil => simp [scanEquals] at h
  | cons x xs ih =>
    rw [scanEquals] at h
    split at h
    · rename_i hx
      cases h
      exact ⟨[], xs, by simp [hx], by simp, by simp⟩
    · rename_i hx
      obtain ⟨k, v, hs, hk, hj⟩ := ih (i + 1) h
      refine ⟨x :: k, v, by simp [hs], ?_, by simp; omega⟩
      simp only [List.mem_cons, not_or]
      exact ⟨fun e => hx e.symm, hk⟩

/-- A line with an equals sign is split at the first one. -/
theorem substr_name_value (k v : Str) :
    substr (k ++ '=' :: v) 0 k.length = k ∧
      substr (k ++ '=' :: v) (k.length + 1) ((k ++ '=' :: v).length - 1) = v := by
  constructor
  · simp [substr]
  · have : (k ++ '=' :: v).drop (k.length + 1) = v := by
      rw [show k ++ '=' :: v = (k ++ ['=']) ++ v by simp]
      rw [List.drop_append_eq_append_drop]
      simp
    rw [substr, this]
    apply List.take_of_length_le
    simp

/-- What a pass through the read loop does, by the shape of the line. -/
theorem loadConfigLine_cases (env : Env) (st : LoadState) (line : Str) :
    (loadConfigLine env st line).1 = st ∨
      ∃ k v, line = k ++ '=' :: v ∧ '=' ∉ k ∧
        loadConfigLine env st line =
          (createSystem env { st with vars := assignVar st.vars k v }, true) := by
  rw [loadConfigLine]
  split
  · exact Or.inl rfl
  · split
    · rename_i i hi
      obtain ⟨k, v, hs, hk, hj⟩ := scanEquals_some line 0 i hi
      right
      refine ⟨k, v, hs, hk, ?_⟩
      have hi' : i = k.length := by omega
      subst hs
      rw [hi', (substr_name_value k v).1, (substr_name_value k v).2]
    · exact Or.inl rfl

theorem loadConfigLine_parsed (env : Env) (st : LoadState) (k v : Str) (hk : '=' ∉ k)
    (hne : k ≠ []) (hhash : k.head? ≠ some '#') :
    loadConfigLine env st (k ++ '=' :: v) =
      (createSystem env { st with vars := assignVar st.vars k v }, true) := by
  have h1 : ¬ (k ++ '=' :: v = [] ∨ (k ++ '=' :: v).head? = some '#') := by
    cases k with
    | nil => exact absurd rfl hne
    | cons c cs => simpa using hhash
  rw [loadConfigLine, if_neg h1, scanEquals_first k v 0 hk]
  simp only [Nat.zero_add]
  rw [(substr_name_value k v).1, (substr_name_value k v).2]

/-- A property of the state that every pass over a line of `lines` keeps holds when the
read loop is done. -/
theorem loadConfigLoop_invariant (env : Env) (lines : List Str) (Inv : LoadState → Prop)
    (hstep : ∀ st line, line ∈ lines → Inv st → Inv (loadConfigLine env st line).1) :
    ∀ (ls : List Str) (st : LoadState), (∀ l ∈ ls, l ∈ lines) → Inv st →
      Inv (loadConfigLoop env st ls) := by
  intro ls
  induction ls with
  | nil => intro st _ h; simpa [loadConfigLoop] using h
  | cons l rest ih =>
    intro st hsub h
    have h1 := hstep st l (hsub l (List.mem_cons_self _ _)) h
    rw [loadConfigLoop]
    split
    · rename_i st1 heq
      rw [heq] at h1
      exact ih st1 (fun x hx => hsub x (List.mem_cons_of_mem _ hx)) h1
    · rename_i st1 heq
      rw [heq] at h1
      exact h1

/-- The system that `createSystem` makes from the variables. -/
theorem createSystem_complete (env : Env) (st : LoadState)
    (hc : st.vars.sysName ≠ [] ∧ st.vars.sysPath ≠ [] ∧ st.vars.sysExtension ≠ [] ∧
      st.vars.sysCommand ≠ []) :
    createSystem env st =
      if getFileCount (SystemData.new env st.vars.sysName
          (if st.vars.sysDescName = [] then st.vars.sysName else st.vars.sysDescName)
          st.vars.sysPath st.vars.sysExtension st.vars.sysCommand).getRootFolder = 0 then
        { vars := ConfigVars.empty, sSystemVector := st.sSystemVector }
      else
        { vars := ConfigVars.empty,
          sSystemVector := st.sSystemVector ++
            [SystemData.new env st.vars.sysName
              (if st.vars.sysDescName = [] then st.vars.sysName else st.vars.sysDescName)
              st.vars.sysPath st.vars.sysExtension st.vars.sysCommand] } := by
  rw [createSystem]
  exact if_pos hc

theorem createSystem_incomplete (env : Env) (st : LoadState)
    (hc : ¬ (st.vars.sysName ≠ [] ∧ st.vars.sysPath ≠ [] ∧ st.vars.sysExtension ≠ [] ∧
      st.vars.sysCommand ≠ [])) :
    createSystem env st = st := by
  rw [createSystem]
  exact if_neg hc

theorem createSystem_registry (env : Env) (st : LoadState) (P : SystemData → Prop)
    (hreg : ∀ s ∈ st.sSystemVector, P s)
    (hnew : st.vars.sysName ≠ [] → st.vars.sysPath ≠ [] → st.vars.sysExtension ≠ [] →
      st.vars.sysCommand ≠ [] → ∀ d,
      getFileCount (SystemData.new env st.vars.sysName d st.vars.sysPath
        st.vars.sysExtension st.vars.sysCommand).getRootFolder ≠ 0 →
      P (SystemData.new env st.vars.sysName d st.vars.sysPath
        st.vars.sysExtension st.vars.sysCommand)) :
    ∀ s ∈ (createSystem env st).sSystemVector, P s := by
  by_cases hc : st.vars.sysName ≠ [] ∧ st.vars.sysPath ≠ [] ∧ st.vars.sysExtension ≠ [] ∧
      st.vars.sysCommand ≠ []
  · rw [createSystem_complete env st hc]
    generalize (if st.vars.sysDescName = [] then st.vars.sysName else st.vars.sysDescName) = d
    by_cases hcount : getFileCount (SystemData.new env st.vars.sysName d st.vars.sysPath
        st.vars.sysExtension st.vars.sysCommand).getRootFolder = 0
    · rw [if_pos hcount]
      exact hreg
    · rw [if_neg hcount]
      intro s hs
      rcases List.mem_append.mp hs with hs | hs
      · exact hreg s hs
      · rw [List.mem_singleton] at hs
        subst hs
        exact hnew hc.1 hc.2.1 hc.2.2.1 hc.2.2.2 _ hcount
  · rw [createSystem_incomplete env st hc]
    exact hreg

theorem loadConfig_eq_some (env : Env) (old reg : List SystemData)
    (h : loadConfig env old = some reg) :
    reg = [] ∨ ∃ path text, getConfigPath env = some path ∧ env.readFile path = some text ∧
      reg = (loadConfigLoop env { vars := ConfigVars.empty, sSystemVector := [] }
        (fileLines text)).sSystemVector := by
  rw [loadConfig] at h
  simp only [deleteSystems] at h
  split at h
  · cases h
  · rename_i path hp
    split at h
    · rename_i text ht
      cases h
      exact Or.inr ⟨path, text, hp, ht, rfl⟩
    · cases h
      exact Or.inl rfl

/-- C7: when `loadConfig` returns, whatever the config file holds and whatever the
registry held before, every system of the registry has a root folder with
`getFileCount() >= 1`. -/
theorem loadConfig_registry_has_files (env : Env) (old reg : List SystemData)
    (h : loadConfig env old = some reg) :
    ∀ s ∈ reg, 1 ≤ getFileCount s.getRootFolder := by
  rcases loadConfig_eq_some env old reg h with h0 | ⟨path, text, _, _, hreg⟩
  · subst h0; simp
  · subst hreg
    refine loadConfigLoop_invariant env (fileLines text)
      (fun st => ∀ s ∈ st.sSystemVector, 1 ≤ getFileCount s.getRootFolder) ?_
      (fileLines text) _ (fun _ hl => hl) (by simp)
    intro st line _ hInv
    rcases loadConfigLine_cases env st line with h1 | ⟨k, v, _, _, h1⟩
    · rw [h1]; exact hInv
    · rw [h1]
      exact createSystem_registry env _ _ hInv (fun _ _ _ _ d hd => by omega)
/-- The registry `loadConfig` builds in `sampleEnv`: one system, with two games. -/
theorem loadConfig_sampleEnv :
    (loadConfig sampleEnv []).map (fun reg => reg.map
      (fun s => (s.mName, s.getDescName, s.getStartPath, getFileCount s.getRootFolder))) =
    some [("nes".toList, "Nintendo Entertainment System".toList, "/home/u/ROMs/nes".toList, 2)] := by
  rfl

/-- In `sampleEnv` the registry holds one system after `loadConfig`. -/
theorem loadConfig_registry_has_files_witness :
    ∃ reg, loadConfig sampleEnv [] = some reg ∧ reg.length = 1 ∧
      ∀ s ∈ reg, 1 ≤ getFileCount s.getRootFolder :=
  ⟨(loadConfig sampleEnv []).getD [], by rfl, by rfl,
    loadConfig_registry_has_files sampleEnv [] _ (by rfl)⟩

theorem SystemData_new_fields (env : Env) (n d p e c : Str) :
    (SystemData.new env n d p e c).mName = n ∧
      (SystemData.new env n d p e c).mDescName = d ∧
      (SystemData.new env n d p e c).mStartPath =
        (if p.head? = some '~' then env.HOME ++ p.drop 1 else p) := by
  simp only [SystemData.new]
  by_cases hi : env.IGNOREGAMELIST = true
  · rw [if_pos hi]; exact ⟨rfl, rfl, rfl⟩
  · rw [if_neg hi]; exact ⟨rfl, rfl, rfl⟩

theorem SystemData_new_startPath (env : Env) (n d p e c : Str) :
    (SystemData.new env n d p e c).getStartPath = expandHome env.HOME p := by
  rw [SystemData.getStartPath, (SystemData_new_fields env n d p e c).2.2]
  cases p with
  | nil => simp [expandHome]
  | cons x xs =>
    by_cases hx : x = '~'
    · subst hx
      simp [expandHome]
    · have : expandHome env.HOME (x :: xs) = x :: xs := by
        unfold expandHome
        split
        · rename_i h; injection h with h1 _; exact absurd h1 hx
        · rfl
      simp [this, hx]

theorem createSystem_vars_complete (env : Env) (st : LoadState)
    (hc : st.vars.sysName ≠ [] ∧ st.vars.sysPath ≠ [] ∧ st.vars.sysExtension ≠ [] ∧
      st.vars.sysCommand ≠ []) :
    (createSystem env st).vars = ConfigVars.empty := by
  rw [createSystem_complete env st hc]
  split_ifs <;> rfl

theorem assignVar_sysPath (vars : ConfigVars) (k v : Str) :
    (assignVar vars k v).sysPath = vars.sysPath ∨
      (k = "PATH".toList ∧ (assignVar vars k v).sysPath = stripTrailingSlash v) := by
  unfold assignVar
  split
  · exact Or.inl rfl
  · split
    · exact Or.inl rfl
    · split
      · rename_i hk
        right
        refine ⟨hk, ?_⟩
        unfold stripTrailingSlash
        split
        · simp [substr, List.dropLast_eq_take]
        · rfl
      · split
        · exact Or.inl rfl
        · split
          · exact Or.inl rfl
          · exact Or.inl rfl

theorem stripTrailingSlash_nil : stripTrailingSlash [] = [] := by
  simp [stripTrailingSlash]

theorem assignVar_path (vars : ConfigVars) (v : Str) :
    (assignVar vars "PATH".toList v).sysPath = stripTrailingSlash v := by
  unfold assignVar stripTrailingSlash
  rw [if_neg (by decide), if_neg (by decide), if_pos rfl]
  split
  · simp [substr, List.dropLast_eq_take]
  · rfl

/-- Whatever the config file holds, the start path of every system of the registry is
`expand(strip(v))` for a non-empty `PATH` value `v` of some line of the file; a `PATH` line
with value `v` sets `sysPath` to `strip(v)`, and the constructor gives the system made
from the path `p` the start path `expand(p)`. -/
theorem loadConfig_startPath_some_line (env : Env) (old reg : List SystemData)
    (h : loadConfig env old = some reg) :
    (∀ s ∈ reg, ∃ v path text, v ≠ [] ∧ getConfigPath env = some path ∧
      env.readFile path = some text ∧ "PATH=".toList ++ v ∈ fileLines text ∧
      s.getStartPath = expandHome env.HOME (stripTrailingSlash v)) ∧
    (∀ (vars : ConfigVars) (v : Str),
      (assignVar vars "PATH".toList v).sysPath = stripTrailingSlash v) ∧
    (∀ n d p e c : Str,
      (SystemData.new env n d p e c).getStartPath = expandHome env.HOME p) := by
  refine ⟨?_, assignVar_path, SystemData_new_startPath env⟩
  rcases loadConfig_eq_some env old reg h with h0 | ⟨path, text, hp, ht, hreg⟩
  · subst h0; simp
  · subst hreg
    have key := loadConfigLoop_invariant env (fileLines text)
      (fun st =>
        (st.vars.sysPath = [] ∨ ∃ v, v ≠ [] ∧ "PATH=".toList ++ v ∈ fileLines text ∧
          st.vars.sysPath = stripTrailingSlash v) ∧
        ∀ s ∈ st.sSystemVector, ∃ v, v ≠ [] ∧ "PATH=".toList ++ v ∈ fileLines text ∧
          s.getStartPath = expandHome env.HOME (stripTrailingSlash v)) ?_
      (fileLines text) { vars := ConfigVars.empty, sSystemVector := [] }
      (fun _ hl => hl) ⟨Or.inl rfl, by simp⟩
    · intro s hs
      obtain ⟨v, hv, hmem, hsp⟩ := key.2 s hs
      exact ⟨v, path, text, hv, hp, ht, hmem, hsp⟩
    · intro st line hline hInv
      rcases loadConfigLine_cases env st line with h1 | ⟨k, v, hl, _, h1⟩
      · rw [h1]; exact hInv
      · rw [h1]
        simp only
        have hpath : (assignVar st.vars k v).sysPath = [] ∨
            ∃ w, w ≠ [] ∧ "PATH=".toList ++ w ∈ fileLines text ∧
              (assignVar st.vars k v).sysPath = stripTrailingSlash w := by
          rcases assignVar_sysPath st.vars k v with e | ⟨hk, e⟩
          · rw [e]; exact hInv.1
          · by_cases hv : v = []
            · left; rw [e, hv, stripTrailingSlash_nil]
            · right
              refine ⟨v, hv, ?_, e⟩
              have : "PATH=".toList ++ v = line := by
                rw [hl, hk]; rfl
              rw [this]; exact hline
        constructor
        · by_cases hc : (assignVar st.vars k v).sysName ≠ [] ∧
              (assignVar st.vars k v).sysPath ≠ [] ∧
              (assignVar st.vars k v).sysExtension ≠ [] ∧
              (assignVar st.vars k v).sysCommand ≠ []
          · rw [createSystem_vars_complete env _ hc]
            exact Or.inl rfl
          · rw [createSystem_incomplete env _ hc]
            exact hpath
        · refine createSystem_registry env _ _ hInv.2 ?_
          intro _ hsp _ _ d _
          rcases hpath with e | ⟨w, hw, hmem, e⟩
          · exact absurd e hsp
          · refine ⟨w, hw, hmem, ?_⟩
            rw [SystemData_new_startPath]
            simp only at e
            rw [e]

/-! ## Records of the config file -/

theorem assignVar_get (vars : ConfigVars) (k k1 : ConfigKey) (v : Str) :
    (assignVar vars k.text v).get k1 = if k1 = k then k.stored v else vars.get k1 := by
  have hstrip : (if v.getLast? = some '/' then
      { vars with sysPath := substr v 0 (v.length - 1) }
      else { vars with sysPath := v } : ConfigVars).sysPath = stripTrailingSlash v := by
    unfold stripTrailingSlash
    split
    · simp [substr, List.dropLast_eq_take]
    · rfl
  cases k <;> cases k1 <;>
    simp [assignVar, ConfigKey.text, ConfigVars.get, ConfigKey.stored, hstrip] <;>
    split <;> rfl

theorem ConfigKey_text_facts (k : ConfigKey) :
    '=' ∉ k.text ∧ k.text ≠ [] ∧ k.text.head? ≠ some '#' := by
  cases k <;> exact ⟨by decide, by decide, by decide⟩

/-- A pass over a line of a record. -/
theorem loadConfigLine_key (env : Env) (st : LoadState) (k : ConfigKey) (v : Str) :
    loadConfigLine env st (k.text ++ '=' :: v) =
      (createSystem env { st with vars := assignVar st.vars k.text v }, true) :=
  loadConfigLine_parsed env st k.text v (ConfigKey_text_facts k).1
    (ConfigKey_text_facts k).2.1 (ConfigKey_text_facts k).2.2

theorem complete_get (vars : ConfigVars) (k : ConfigKey) (hk : k ≠ ConfigKey.DESCNAME)
    (h : vars.get k = []) :
    ¬ (vars.sysName ≠ [] ∧ vars.sysPath ≠ [] ∧ vars.sysExtension ≠ [] ∧
      vars.sysCommand ≠ []) := by
  intro hc
  cases k with
  | NAME => exact hc.1 h
  | DESCNAME => exact hk rfl
  | PATH => exact hc.2.1 h
  | EXTENSION => exact hc.2.2.1 h
  | COMMAND => exact hc.2.2.2 h

theorem assignAll_get (val : ConfigKey → Str) (ks : List ConfigKey) :
    ∀ (vars : ConfigVars) (k1 : ConfigKey),
      (assignAll val vars ks).get k1 = if k1 ∈ ks then k1.stored (val k1) else vars.get k1 := by
  induction ks with
  | nil => intro vars k1; simp [assignAll]
  | cons k ks ih =>
    intro vars k1
    have := ih (assignVar vars k.text (val k)) k1
    rw [assignAll, List.foldl_cons]
    rw [assignAll] at this
    rw [this, assignVar_get]
    by_cases h1 : k1 ∈ ks
    · simp [h1]
    · by_cases h2 : k1 = k
      · subst h2; simp
      · simp [h1, h2]

/-- The lines of a record before its last required line create no system. -/
theorem loadConfigLoop_init (env : Env) (val : ConfigKey → Str) (last : ConfigKey)
    (hlast : last ≠ ConfigKey.DESCNAME) (reg : List SystemData) (rest : List Str)
    (ks : List ConfigKey) :
    ∀ vars : ConfigVars, vars.get last = [] → last ∉ ks →
      loadConfigLoop env { vars := vars, sSystemVector := reg }
          (ks.map (fun k => k.text ++ '=' :: val k) ++ rest) =
        loadConfigLoop env { vars := assignAll val vars ks, sSystemVector := reg } rest := by
  induction ks with
  | nil => intro vars _ _; simp [assignAll]
  | cons k ks ih =>
    intro vars hget hnot
    simp only [List.mem_cons, not_or] at hnot
    have hget1 : (assignVar vars k.text (val k)).get last = [] := by
      rw [assignVar_get, if_neg hnot.1, hget]
    rw [List.map_cons, List.cons_append, loadConfigLoop, loadConfigLine_key]
    simp only
    rw [createSystem_incomplete env _ (complete_get _ last hlast hget1)]
    rw [ih _ hget1 hnot.2]
    rfl
theorem ConfigVars_eq_get (vars : ConfigVars) :
    vars = { sysName := vars.get ConfigKey.NAME, sysDescName := vars.get ConfigKey.DESCNAME,
             sysPath := vars.get ConfigKey.PATH, sysExtension := vars.get ConfigKey.EXTENSION,
             sysCommand := vars.get ConfigKey.COMMAND } := by
  cases vars; rfl

/-- The variables when the last required line of a record has been read, the record
having begun with the variables `vars`. -/
theorem requiredLast_vars (r : ConfigRecord) (h : r.requiredLast) (vars : ConfigVars) :
    assignVar (assignAll r.val vars r.init) r.last.text (r.val r.last) =
      { sysName := r.val ConfigKey.NAME,
        sysDescName :=
          if ConfigKey.DESCNAME ∈ r.init then r.val ConfigKey.DESCNAME else vars.sysDescName,
        sysPath := stripTrailingSlash (r.val ConfigKey.PATH),
        sysExtension := r.val ConfigKey.EXTENSION,
        sysCommand := r.val ConfigKey.COMMAND } := by
  obtain ⟨hlast, _, hall, _⟩ := h
  have hreq : ∀ k, k ≠ ConfigKey.DESCNAME →
      (assignVar (assignAll r.val vars r.init) r.last.text (r.val r.last)).get k =
        k.stored (r.val k) := by
    intro k hk
    rw [assignVar_get]
    by_cases hkl : k = r.last
    · rw [if_pos hkl, hkl]
    · rw [if_neg hkl, assignAll_get, if_pos (hall k hk hkl)]
  have hdesc :
      (assignVar (assignAll r.val vars r.init) r.last.text (r.val r.last)).get
        ConfigKey.DESCNAME =
        if ConfigKey.DESCNAME ∈ r.init then r.val ConfigKey.DESCNAME else vars.sysDescName := by
    rw [assignVar_get, if_neg (fun e => hlast e.symm), assignAll_get]
    rfl
  rw [ConfigVars_eq_get (assignVar _ _ _), hdesc, hreq _ (by decide), hreq _ (by decide),
    hreq _ (by decide), hreq _ (by decide)]
  rfl

theorem requiredEmpty_get (vars : ConfigVars) (h : vars.requiredEmpty) (k : ConfigKey)
    (hk : k ≠ ConfigKey.DESCNAME) : vars.get k = [] := by
  cases k with
  | NAME => exact h.1
  | DESCNAME => exact absurd rfl hk
  | PATH => exact h.2.1
  | EXTENSION => exact h.2.2.1
  | COMMAND => exact h.2.2.2

theorem LoadState_ite (c : Prop) [Decidable c] (v : ConfigVars) (a b : List SystemData) :
    (if c then ({ vars := v, sSystemVector := a } : LoadState)
      else { vars := v, sSystemVector := b }) =
      { vars := v, sSystemVector := if c then a else b } := by
  split <;> rfl

/-- The read loop over the lines of one record that begins with no record under way: the
one system is created on the last line, and the variables are reset. -/
theorem loadConfigLoop_record (env : Env) (r : ConfigRecord) (h : r.requiredLast)
    (st : LoadState) (hstart : st.vars.requiredEmpty) (rest : List Str) :
    loadConfigLoop env st (r.lines ++ rest) =
      loadConfigLoop env
        { vars := ConfigVars.empty,
          sSystemVector :=
            if getFileCount
                (r.system env (r.descNameFrom st.vars.sysDescName)).getRootFolder = 0 then
              st.sSystemVector
            else st.sSystemVector ++ [r.system env (r.descNameFrom st.vars.sysDescName)] }
        rest := by
  obtain ⟨vars, reg⟩ := st
  have hempty : vars.get r.last = [] := requiredEmpty_get vars hstart r.last h.1
  rw [ConfigRecord.lines, List.map_append, List.append_assoc,
    loadConfigLoop_init env r.val r.last h.1 reg _ r.init vars hempty h.2.1]
  rw [List.map_singleton, List.singleton_append, loadConfigLoop, loadConfigLine_key]
  simp only
  rw [requiredLast_vars r h vars]
  have hc := h.2.2.2
  rw [createSystem_complete env _ ⟨hc.1, hc.2.1, hc.2.2.1, hc.2.2.2⟩, LoadState_ite]
  rfl

theorem scanEquals_of_mem (l : Str) (i : Nat) (h : '=' ∈ l) : scanEquals l i ≠ none := by
  induction l generalizing i with
  | nil => simp at h
  | cons x xs ih =>
    rw [scanEquals]
    split
    · simp
    · rename_i hx
      have : '=' ∈ xs := by
        rcases List.mem_cons.mp h with h1 | h1
        · exact absurd h1.symm hx
        · exact h1
      exact ih (i + 1) this

/-- A line that is skipped or has an equals sign does not end the read loop. -/
theorem loadConfigLine_continues (env : Env) (st : LoadState) (l : Str)
    (h : isIgnoredLine l = true ∨ '=' ∈ l) : (loadConfigLine env st l).2 = true := by
  rw [loadConfigLine]
  split
  · rfl
  · rename_i hign
    have heq : '=' ∈ l := by
      rcases h with h | h
      · exact absurd (by simpa [isIgnoredLine] using h) hign
      · exact h
    have := scanEquals_of_mem l 0 heq
    split
    · rfl
    · rename_i hnone
      exact absurd hnone this

/-- The read loop over lines none of which ends it, followed by more lines. -/
theorem loadConfigLoop_append (env : Env) (pre : List Str)
    (hpre : ∀ l ∈ pre, isIgnoredLine l = true ∨ '=' ∈ l) :
    ∀ (st : LoadState) (ls : List Str),
      loadConfigLoop env st (pre ++ ls) = loadConfigLoop env (loadConfigLoop env st pre) ls := by
  induction pre with
  | nil => intro st ls; rfl
  | cons l pre ih =>
    intro st ls
    have hl := loadConfigLine_continues env st l (hpre l (List.mem_cons_self _ _))
    have ih' := ih (fun x hx => hpre x (List.mem_cons_of_mem _ hx))
    rw [List.cons_append, loadConfigLoop, loadConfigLoop]
    cases hline : loadConfigLine env st l with
    | mk st1 flag =>
      rw [hline] at hl
      simp only at hl
      subst hl
      exact ih' st1 ls

/-- No record is under way when the read loop is entered. -/
theorem requiredEmpty_start (env : Env) :
    (loadConfigLoop env LoadState.start []).vars.requiredEmpty :=
  ⟨rfl, rfl, rfl, rfl⟩

theorem ConfigRecord_lines_continue (r : ConfigRecord) :
    ∀ l ∈ r.lines, isIgnoredLine l = true ∨ '=' ∈ l := by
  intro l hl
  rw [ConfigRecord.lines, List.mem_map] at hl
  obtain ⟨k, _, hk⟩ := hl
  right
  rw [← hk]
  simp

/-- No record is under way after a record that ends with a required line and that began
with none under way: every variable has been reset. -/
theorem requiredEmpty_after_record (env : Env) (pre : List Str) (r : ConfigRecord)
    (hpre : ∀ l ∈ pre, isIgnoredLine l = true ∨ '=' ∈ l) (hrec : r.requiredLast)
    (hstart : (loadConfigLoop env LoadState.start pre).vars.requiredEmpty) :
    (loadConfigLoop env LoadState.start (pre ++ r.lines)).vars = ConfigVars.empty ∧
      (loadConfigLoop env LoadState.start (pre ++ r.lines)).vars.requiredEmpty := by
  have h := loadConfigLoop_record env r hrec _ hstart []
  rw [List.append_nil] at h
  rw [loadConfigLoop_append env pre hpre, h]
  exact ⟨rfl, rfl, rfl, rfl, rfl⟩

/-- A skipped line and a `DESCNAME` line leave no record under way when none was. -/
theorem requiredEmpty_after_line (env : Env) (pre : List Str) (l : Str)
    (hpre : ∀ l ∈ pre, isIgnoredLine l = true ∨ '=' ∈ l)
    (hl : isIgnoredLine l = true ∨ ∃ v, l = ConfigKey.DESCNAME.text ++ '=' :: v)
    (hstart : (loadConfigLoop env LoadState.start pre).vars.requiredEmpty) :
    (loadConfigLoop env LoadState.start (pre ++ [l])).vars.requiredEmpty := by
  rw [loadConfigLoop_append env pre hpre]
  generalize loadConfigLoop env LoadState.start pre = st at hstart
  rcases hl with hl | ⟨v, hl⟩
  · have hign : l = [] ∨ l.head? = some '#' := by simpa [isIgnoredLine] using hl
    rw [loadConfigLoop, loadConfigLine, if_pos hign]
    exact hstart
  · have hget : ∀ k, k ≠ ConfigKey.DESCNAME →
        (assignVar st.vars ConfigKey.DESCNAME.text v).get k = [] := by
      intro k hk
      rw [assignVar_get, if_neg hk]
      exact requiredEmpty_get st.vars hstart k hk
    rw [hl, loadConfigLoop, loadConfigLine_key]
    simp only
    rw [createSystem_incomplete env _
      (complete_get _ ConfigKey.NAME (by decide) (hget _ (by decide)))]
    exact ⟨hget ConfigKey.NAME (by decide), hget ConfigKey.PATH (by decide),
      hget ConfigKey.EXTENSION (by decide), hget ConfigKey.COMMAND (by decide)⟩

/-- The registry `loadConfig` builds in `twoSystemsEnv`. -/
theorem loadConfig_twoSystemsEnv :
    (loadConfig twoSystemsEnv []).map (fun reg => reg.map
      (fun s => (s.mName, s.getDescName, s.getStartPath, getFileCount s.getRootFolder))) =
    some [("nes".toList, "Nintendo Entertainment System".toList, "/home/u/ROMs/nes".toList, 1),
      ("snes".toList, "Super Nintendo".toList, "/home/u/ROMs/snes".toList, 1)] := by
  rfl

theorem findFrom_of_isPrefix (tok s : Str) (i : Nat) (h : tok <+: s) :
    findFrom tok s i = some i := by
  have hp := List.isPrefixOf_iff_prefix.mpr h
  cases s <;> simp [findFrom, hp]

theorem findFrom_first (tok w : Str) (u : Str) :
    ∀ i, (∀ m, m < u.length → ¬ tok <+: (u ++ tok ++ w).drop m) →
      findFrom tok (u ++ tok ++ w) i = some (i + u.length) := by
  induction u with
  | nil =>
    intro i _
    simpa using findFrom_of_isPrefix tok (tok ++ w) i (List.prefix_append _ _)
  | cons x u ih =>
    intro i h
    have h0 : ¬ tok.isPrefixOf (x :: (u ++ tok ++ w)) = true := by
      intro hp
      exact h 0 (by simp) (by simpa using List.isPrefixOf_iff_prefix.mp hp)
    have hstep : ∀ m, m < u.length → ¬ tok <+: (u ++ tok ++ w).drop m := by
      intro m hm
      have := h (m + 1) (by simp; omega)
      simpa using this
    have := ih (i + 1) hstep
    show findFrom tok (x :: (u ++ tok ++ w)) i = _
    rw [findFrom, if_neg h0, this, List.length_cons,
      show i + (u.length + 1) = i + 1 + u.length by omega]

/-- `strreplace` replaces the occurrence of the token that no other one precedes. -/
theorem strreplace_first (tok withStr u w : Str)
    (h : ∀ m, m < u.length → ¬ tok <+: (u ++ tok ++ w).drop m) :
    strreplace (u ++ tok ++ w) tok withStr = u ++ withStr ++ w := by
  have hf : find (u ++ tok ++ w) tok 0 = some u.length := by
    simp only [find, Nat.zero_le, if_true, List.drop_zero]
    simpa using findFrom_first tok w u 0 h
  rw [strreplace, hf]
  simp only
  rw [List.append_assoc u tok w, List.take_left' rfl, List.drop_append_eq_append_drop]
  simp

theorem mem_occurrences (tok s : Str) :
    ∀ i m, m ≤ s.length → tok <+: s.drop m → i + m ∈ occurrences tok s i := by
  induction s with
  | nil =>
    intro i m hm hp
    have hm0 : m = 0 := by simpa using hm
    subst hm0
    have := List.isPrefixOf_iff_prefix.mpr hp
    simp only [List.drop_nil] at this
    simp [occurrences, this]
  | cons x xs ih =>
    intro i m hm hp
    cases m with
    | zero =>
      have := List.isPrefixOf_iff_prefix.mpr hp
      simp only [List.drop_zero] at this
      simp [occurrences, this]
    | succ m =>
      have hm' : m ≤ xs.length := by simpa using hm
      have := ih (i + 1) m hm' (by simpa using hp)
      rw [occurrences]
      have e : i + (m + 1) = i + 1 + m := by omega
      rw [e]
      split
      · exact List.mem_cons_of_mem _ this
      · exact this

/-- When the token occurs exactly once, it occurs nowhere but at the place where it is
known to occur. -/
theorem occurs_only_at (tok s : Str) (k m : Nat) (hone : (occurrences tok s 0).length = 1)
    (hk : k ≤ s.length) (hkp : tok <+: s.drop k) (hm : m ≤ s.length)
    (hmp : tok <+: s.drop m) : m = k := by
  have h1 := mem_occurrences tok s 0 k hk hkp
  have h2 := mem_occurrences tok s 0 m hm hmp
  rw [Nat.zero_add] at h1 h2
  match hocc : occurrences tok s 0, hone with
  | [z], _ =>
    rw [hocc, List.mem_singleton] at h1 h2
    rw [h1, h2]

theorem isPrefix_drop_local (tok x y y1 : Str) (m : Nat) (hm : m + tok.length ≤ x.length)
    (h : tok <+: (x ++ y).drop m) : tok <+: (x ++ y1).drop m := by
  have hle : m ≤ x.length := by omega
  rw [List.drop_append_of_le_length hle] at h ⊢
  have hx : tok <+: x.drop m :=
    List.prefix_of_prefix_length_le h (List.prefix_append _ _) (by simp; omega)
  exact hx.trans (List.prefix_append _ _)
theorem isPrefix_drop_length (u tok w : Str) : tok <+: (u ++ tok ++ w).drop u.length := by
  rw [List.append_assoc, List.drop_left]
  exact List.prefix_append _ _

/-- When the token occurs exactly once, no occurrence precedes the known one. -/
theorem none_before_of_once (tok u w : Str)
    (hone : (occurrences tok (u ++ tok ++ w) 0).length = 1) :
    ∀ m, m < u.length → ¬ tok <+: (u ++ tok ++ w).drop m := by
  intro m hm hp
  have hlen : u.length ≤ (u ++ tok ++ w).length := by simp
  have := occurs_only_at tok (u ++ tok ++ w) u.length m hone hlen
    (isPrefix_drop_length u tok w) (by omega) hp
  omega

/-- C10, as amended: for a template `a ++ %ROM% ++ b ++ %BASENAME% ++ c` that holds
`%ROM%` exactly once, `launchGame` builds `a ++ path ++ b ++ basename ++ c` when, once the
path is in place, no `%BASENAME%` starts before the one of the template; for a template
`a ++ %BASENAME% ++ b ++ %ROM% ++ c` that holds each token exactly once it builds
`a ++ basename ++ b ++ path ++ c` for every game. -/
theorem launchGame_substitutes (a b c bashPath baseName : Str) :
    ((occurrences romToken (a ++ romToken ++ b ++ basenameToken ++ c) 0).length = 1 →
      (∀ m, m < (a ++ bashPath ++ b).length →
        ¬ basenameToken <+: (a ++ bashPath ++ b ++ basenameToken ++ c).drop m) →
      launchGame (a ++ romToken ++ b ++ basenameToken ++ c) bashPath baseName =
        a ++ bashPath ++ b ++ baseName ++ c) ∧
    ((occurrences romToken (a ++ basenameToken ++ b ++ romToken ++ c) 0).length = 1 →
      (occurrences basenameToken (a ++ basenameToken ++ b ++ romToken ++ c) 0).length = 1 →
      launchGame (a ++ basenameToken ++ b ++ romToken ++ c) bashPath baseName =
        a ++ baseName ++ b ++ bashPath ++ c) := by
  constructor
  · intro hrom hbase
    have e1 : a ++ romToken ++ b ++ basenameToken ++ c =
        a ++ romToken ++ (b ++ basenameToken ++ c) := by simp
    have h1 : strreplace (a ++ romToken ++ b ++ basenameToken ++ c) romToken bashPath =
        a ++ bashPath ++ b ++ basenameToken ++ c := by
      rw [e1, strreplace_first romToken bashPath a _ (none_before_of_once _ _ _ (e1 ▸ hrom))]
      simp
    rw [launchGame, h1]
    exact strreplace_first basenameToken baseName (a ++ bashPath ++ b) c hbase
  · intro hrom hbase
    have h1 : strreplace (a ++ basenameToken ++ b ++ romToken ++ c) romToken bashPath =
        a ++ basenameToken ++ b ++ bashPath ++ c :=
      strreplace_first romToken bashPath (a ++ basenameToken ++ b) c
        (none_before_of_once _ _ _ hrom)
    have e2 : a ++ basenameToken ++ b ++ romToken ++ c =
        a ++ basenameToken ++ (b ++ romToken ++ c) := by simp
    have e3 : a ++ basenameToken ++ b ++ bashPath ++ c =
        a ++ basenameToken ++ (b ++ bashPath ++ c) := by simp
    have hnone : ∀ m, m < a.length →
        ¬ basenameToken <+: (a ++ basenameToken ++ (b ++ bashPath ++ c)).drop m := by
      intro m hm hp
      have hloc := isPrefix_drop_local basenameToken (a ++ basenameToken) _
        (b ++ romToken ++ c) m (by simp; omega) hp
      exact none_before_of_once basenameToken a (b ++ romToken ++ c) (e2 ▸ hbase) m hm hloc
    rw [launchGame, h1, e3, strreplace_first basenameToken baseName a _ hnone]
    simp

/-- Both orders of the two tokens, the second with a path that holds `%BASENAME%`. -/
theorem launchGame_substitutes_witness :
    launchGame ("emu ".toList ++ romToken ++ " -n ".toList ++ basenameToken ++ " -f".toList)
        "/roms/mario\\ bros.nes".toList "mario bros".toList =
      "emu /roms/mario\\ bros.nes -n mario bros -f".toList ∧
    launchGame ("emu -n ".toList ++ basenameToken ++ " ".toList ++ romToken ++ [])
        "/%BASENAME%/g.nes".toList "g".toList =
      "emu -n g /%BASENAME%/g.nes".toList :=
  ⟨(launchGame_substitutes "emu ".toList " -n ".toList " -f".toList
      "/roms/mario\\ bros.nes".toList "mario bros".toList).1 (by decide) (by decide),
   (launchGame_substitutes "emu -n ".toList " ".toList [] "/%BASENAME%/g.nes".toList
      "g".toList).2 (by decide) (by decide)⟩

/-- C10 fails as stated: in `%ROM% %BASENAME%` each token occurs once, and for the game
`/%BASENAME%/g.nes` the second replacement lands inside the path just put in. -/
theorem launchGame_rescans_path_counterexample :
    (occurrences romToken ([] ++ romToken ++ " ".toList ++ basenameToken ++ []) 0).length = 1 ∧
    (occurrences basenameToken ([] ++ romToken ++ " ".toList ++ basenameToken ++ []) 0).length
      = 1 ∧
    launchGame ([] ++ romToken ++ " ".toList ++ basenameToken ++ [])
        "/%BASENAME%/g.nes".toList "g".toList = "/g/g.nes %BASENAME%".toList ∧
    launchGame ([] ++ romToken ++ " ".toList ++ basenameToken ++ [])
        "/%BASENAME%/g.nes".toList "g".toList ≠
      [] ++ "/%BASENAME%/g.nes".toList ++ " ".toList ++ "g".toList ++ [] := by
  refine ⟨by decide, by decide, by decide, by decide⟩

end EmulationStation
